import Mathlib

/-!
Shallow embedding of the uni-remote content-resolution engine
(`uni-server/src/element/sc.rs`, `uni-server/src/util/mfs.rs`,
`uni-server/src/util/etag.rs`, `uni-server/src/util/path_ext.rs`,
`uni-server/src/routes/play.rs`).

Hash maps are modelled as association lists whose `insertA` operation has
exactly the observable behaviour of `HashMap::insert` (replace on key
collision); filesystem state (directory walks, file bytes, mtimes) is passed
in explicitly as data.
-/

namespace UniRemote

/-- Observable model of `HashMap::get`. -/
def getA {κ β : Type} [DecidableEq κ] : List (κ × β) → κ → Option β
  | [], _ => none
  | (k', v) :: m, k => if k = k' then some v else getA m k

/-- Observable model of `HashMap::insert`: the new binding replaces any
existing binding of the same key. -/
def insertA {κ β : Type} [DecidableEq κ] (m : List (κ × β)) (k : κ) (v : β) :
    List (κ × β) :=
  (k, v) :: m.filter (fun p => decide (p.1 ≠ k))

/-- Number of entries of the map carrying a given key. -/
def countKey {κ β : Type} [DecidableEq κ] (m : List (κ × β)) (k : κ) : Nat :=
  (m.filter (fun p => decide (p.1 = k))).length

/-- Left-biased choice on `Option`, the shape of repeated map lookups. -/
def orO {α : Type} : Option α → Option α → Option α
  | some v, _ => some v
  | none, b => b

/-- `mfs.rs`: `enum FileNode { File(String) }` — a backing file reference. -/
inductive FileNode : Type
  | File (path : String)
deriving DecidableEq

/-- `mfs.rs`: the map inside `MapFileSystem` (slash-joined relative path to
backing file reference). -/
abbrev MFS := List (String × FileNode)

/-- A read-only snapshot of backing-file contents: `fs p = some bytes` when
the path exists, is a regular file and reads successfully; `none` covers
missing path, directory, and read error. -/
abbrev FSim := String → Option (List Nat)

/-- Split a character list at every occurrence of a separator; empty
segments are kept, so the result on `n` separators has `n + 1` segments. -/
def splitOnChar (sep : Char) (s : List Char) : List (List Char) :=
  s.foldr
    (fun c acc =>
      if c = sep then [] :: acc
      else
        match acc with
        | [] => [[c]]
        | g :: gs => (c :: g) :: gs)
    [[]]

/-- Splitting a string on `'/'`, as `str::split('/')` does. -/
def splitSlash (p : String) : List String :=
  (splitOnChar '/' p.data).map (fun l => ⟨l⟩)

/-- Rust `Path::file_name` on a slash-separated path string: the last
nonempty component (`""` when there is none). -/
def fileName (p : String) : String :=
  (((splitSlash p).filter (fun c => c ≠ "")).getLast?).getD ""

/-- `mfs.rs` `FileNode::resolve`: read the backing file's bytes and return
them with the backing file's name; `none` when the file is missing, not a
regular file, or unreadable. -/
def FileNode.resolve (fs : FSim) : FileNode → Option (List Nat × String)
  | .File p => (fs p).map (fun bytes => (bytes, fileName p))

/-- `play.rs` `handle_other_path`, overlay (`SugarCube`) branch: the request
path is used verbatim as the key of the merged overlay, then the backing
node is resolved. -/
def overlayLookup (fs : FSim) (overlay : MFS) (other_path : String) :
    Option (List Nat × String) :=
  (getA overlay other_path).bind (FileNode.resolve fs)

/-- One iteration of the layer-merge loop of `sc.rs` `create_instances`:
a layer id present in the layer store has all of its entries inserted into
the accumulator (overwriting on key collision), an absent id is skipped. -/
def mergeStep (layerStore : List (String × MFS)) (acc : MFS) (lid : String) :
    MFS :=
  match getA layerStore lid with
  | some mfs => mfs.foldl (fun a p => insertA a p.1 p.2) acc
  | none => acc

/-- `sc.rs` `create_instances`, layer-merge loop: fold the record's layer
ids in list order starting from the empty accumulator. -/
def mergeLayers (layerStore : List (String × MFS)) (layers : List String) :
    MFS :=
  layers.foldl (mergeStep layerStore) []

/-- Last-writer-wins reading of the spec's merge semantics: the value of a
key is the one contributed by the last layer in the list, among those
present in the layer store, that defines the key. -/
def lastWinsSpec (layerStore : List (String × MFS)) :
    List String → String → Option FileNode
  | [], _ => none
  | l :: rest, k =>
    match lastWinsSpec layerStore rest k with
    | some v => some v
    | none => (getA layerStore l).bind (fun m => getA m k)

/-! ### Plain-mode path guard (`play.rs` `handle_other_path`, `Plain` branch) -/

/-- Outcome of the plain-mode branch: either the request is rejected by the
traversal guard (no filesystem access happens), or `read_file` is invoked
on the accumulated path. -/
inductive PlainOutcome : Type
  | forbidden
  | read (path : List String)
deriving DecidableEq

/-- The component loop of the `Plain` branch: empty and `"."` components are
dropped, a `".."` component aborts the whole request, anything else is
pushed onto the accumulated path. -/
def pushComponents (acc : List String) : List String → Option (List String)
  | [] => some acc
  | c :: rest =>
    if c = "" ∨ c = "." then pushComponents acc rest
    else if c = ".." then none
    else pushComponents (acc ++ [c]) rest

/-- `play.rs` `handle_other_path`, `Plain` branch: split the sub-path on
`/` and run the guard loop; rejection yields `forbidden` before any file is
touched. -/
def handlePlainPath (root : List String) (other_path : String) :
    PlainOutcome :=
  match pushComponents root (splitSlash other_path) with
  | none => .forbidden
  | some p => .read p

/-! ### Fingerprint (`etag.rs`) -/

/-- `etag.rs` `etag_hash`: format the 64-bit content hash as a quoted
decimal token. The hash itself (`xxhash_rust::xxh3::xxh3_64`) is an external
library function and is taken as a parameter, reduced to 64 bits. -/
def etag_hash (h : List Nat → Nat) (content : List Nat) : String :=
  "\"" ++ toString (h content % 2 ^ 64) ++ "\""

/-- `etag.rs` `etag_check`: return a not-modified response (carrying the
tag) exactly when the client's `If-None-Match` header is present, readable,
and equal to the fingerprint of the current content bytes. -/
def etag_check (h : List Nat → Nat) (content : List Nat)
    (if_none_match : Option String) : Option String :=
  match if_none_match with
  | none => none
  | some cli =>
    if cli = etag_hash h content then some (etag_hash h content) else none

/-! ### Instance resolution (`sc.rs` `create_instances`) -/

/-- `sc.rs` `SugarCubeInstanceConfig`: one parsed instance record. -/
structure SugarCubeInstanceConfig : Type where
  id : String
  name : Option String
  index : String
  layers : List String
  mods : List (String × String)
deriving DecidableEq

/-- `sc.rs` `SugarCubeInstance`: one resolved instance. -/
structure SugarCubeInstance : Type where
  id : String
  name : Option String
  index_path : String
  layer_merged : MFS
  mods_ref : List ((String × String) × String)
deriving DecidableEq

/-- One file discovered by the instance-directory walker: its file name,
its extension as it appears on disk, and the outcome of reading plus
parsing it under the format selected by its lowercased extension
(`none` = `read_to_string` failed; `some (.error ())` = the format's parser
failed; `some (.ok cfg)` = parsed record). -/
structure RecordFile : Type where
  fname : String
  ext : String
  content : Option (Except Unit SugarCubeInstanceConfig)

/-- ASCII lowercasing of one character, as Rust's `to_lowercase` acts on
the ASCII extensions involved. -/
def charLower (c : Char) : Char :=
  if 'A' ≤ c ∧ c ≤ 'Z' then Char.ofNat (c.toNat + 32) else c

/-- ASCII lowercasing of a string. -/
def strLower (s : String) : String := ⟨s.data.map charLower⟩

/-- The extensions accepted by the instance-record walker. -/
def supportedExt (e : String) : Bool :=
  e = "json" || e = "toml" || e = "yaml" || e = "yml"

/-- The walker's filter in `create_instances`: not the reserved example
file, and a case-insensitively recognized record extension. -/
def passFilter (f : RecordFile) : Bool :=
  f.fname ≠ "_example.yaml" && supportedExt (strLower f.ext)

/-- Mod store: mod id to (sub id to archive path). -/
abbrev ModMapM := List (String × List (String × String))

/-- One iteration of the mod-resolution loop of `sc.rs` `create_instances`:
a (mod id, sub id) pair that resolves in the mod store is inserted keyed by
the pair itself; an unresolved pair is dropped. -/
def modStep (modStore : ModMapM) (acc : List ((String × String) × String))
    (p : String × String) : List ((String × String) × String) :=
  match getA modStore p.1 with
  | some subs =>
    match getA subs p.2 with
    | some pth => insertA acc (p.1, p.2) pth
    | none => acc
  | none => acc

/-- `sc.rs` `create_instances`, mod-resolution loop over the record's
ordered mod list. -/
def resolveMods (modStore : ModMapM) (pairs : List (String × String)) :
    List ((String × String) × String) :=
  pairs.foldl (modStep modStore) []

/-- `sc.rs` `create_instances`, per-record resolution: a record whose index
id misses the index store is discarded; otherwise the record resolves with
the merged layer overlay and the resolved mod references. -/
def resolveRecord (indexStore : List (String × String))
    (layerStore : List (String × MFS)) (modStore : ModMapM)
    (cfg : SugarCubeInstanceConfig) : Option SugarCubeInstance :=
  match getA indexStore cfg.index with
  | none => none
  | some ip =>
    some ⟨cfg.id, cfg.name, ip, mergeLayers layerStore cfg.layers,
      resolveMods modStore cfg.mods⟩

/-- One iteration of the `create_instances` walker loop over a discovered
file: files failing the walker filter never reach the loop body, a read
failure skips the file, a parse failure aborts with `Err` (the `?`
operator), an index miss discards the record, and otherwise the resolved
instance is inserted by record id. -/
def procFile (indexStore : List (String × String))
    (layerStore : List (String × MFS)) (modStore : ModMapM)
    (map : List (String × SugarCubeInstance)) (f : RecordFile) :
    Except Unit (List (String × SugarCubeInstance)) :=
  if passFilter f then
    match f.content with
    | none => .ok map
    | some (.error e) => .error e
    | some (.ok cfg) =>
      match resolveRecord indexStore layerStore modStore cfg with
      | none => .ok map
      | some inst => .ok (insertA map cfg.id inst)
  else .ok map

/-- The `create_instances` walker loop, threading the accumulated instance
map and aborting on the first parse error. -/
def instLoop (indexStore : List (String × String))
    (layerStore : List (String × MFS)) (modStore : ModMapM) :
    List RecordFile → List (String × SugarCubeInstance) →
      Except Unit (List (String × SugarCubeInstance))
  | [], map => .ok map
  | f :: rest, map =>
    match procFile indexStore layerStore modStore map f with
    | .error e => .error e
    | .ok m => instLoop indexStore layerStore modStore rest m

/-- `sc.rs` `create_instances`: a missing instance directory is
bootstrapped (example record written) and yields an empty map; otherwise
the discovered files are folded by the walker loop. -/
def create_instances (indexStore : List (String × String))
    (layerStore : List (String × MFS)) (modStore : ModMapM)
    (dirExists : Bool) (files : List RecordFile) :
    Except Unit (List (String × SugarCubeInstance)) :=
  if dirExists then instLoop indexStore layerStore modStore files []
  else .ok []

/-- `sc.rs` `create_sc_info`: the mod store is built only when `use_mods`
is set, otherwise it is the empty map; instances are resolved against
whichever was chosen. -/
structure SugarCubeInfo : Type where
  name : Option String
  instances : List (String × SugarCubeInstance)
  mods : ModMapM
  use_mods : Bool
  use_save_sync_mod : Bool

/-- `sc.rs` `create_sc_info`, given the on-disk stores already scanned. -/
def create_sc_info (name : Option String)
    (use_mods use_save_sync_mod : Bool)
    (indexStore : List (String × String)) (layerStore : List (String × MFS))
    (modStore : ModMapM) (dirExists : Bool) (files : List RecordFile) :
    Except Unit SugarCubeInfo :=
  let mods := if use_mods then modStore else []
  match create_instances indexStore layerStore mods dirExists files with
  | .error e => .error e
  | .ok insts => .ok ⟨name, insts, mods, use_mods, use_save_sync_mod⟩

/-! ### Layer store and cache (`sc.rs` `create_layers`) -/

/-- `sc.rs` `LayerCache`: the persisted snapshot. mtimes are modelled as
naturals. -/
structure LayerCacheM : Type where
  last_modified : Nat
  layer_map : List (String × MFS)
deriving DecidableEq

/-- One entry yielded by the `WalkDir` scan under the layer root: its path
relative to the root (`[]` is the root itself) and its mtime. -/
structure WalkEntry : Type where
  path : List String
  mtime : Nat
deriving DecidableEq

/-- Rust `file_name()` of a walk entry: its last path component; the root
entry reports the layer directory's own name, `"layer"`. -/
def entryName (e : WalkEntry) : String := e.path.getLastD "layer"

/-- The observable on-disk state `create_layers` consumes: whether the
layer root exists, the root's own mtime, the walk entries beneath it, the
cache artifact (`none` = unreadable, `some none` = undecodable,
`some (some c)` = decoded snapshot), and the immediate subdirectories with
their scan results (`none` = `MapFileSystem::new_dir` failed, skipped). -/
structure LayerDirState : Type where
  dirExists : Bool
  rootMtime : Nat
  walkEntries : List WalkEntry
  cacheArtifact : Option (Option LayerCacheM)
  subdirs : List (String × Option MFS)

/-- `sc.rs` `get_latest_modified_time`: the maximum mtime over the root and
every walk entry whose file name is not `"cache.bin"`. -/
def get_latest_modified_time (s : LayerDirState) : Nat :=
  (s.walkEntries.filter (fun e => decide (entryName e ≠ "cache.bin"))).foldl
    (fun acc e => max acc e.mtime) s.rootMtime

/-- The rebuild branch of `create_layers`: each immediate subdirectory
whose scan succeeded is inserted under its directory name. -/
def rebuildLayerMap (s : LayerDirState) : List (String × MFS) :=
  s.subdirs.foldl
    (fun m p =>
      match p.2 with
      | some mfs => insertA m p.1 mfs
      | none => m)
    []

/-- Result of `create_layers`: the returned map, the cache artifact written
(if any), and whether the cached map was returned without a rebuild. -/
structure CreateLayersResult : Type where
  map : List (String × MFS)
  written : Option LayerCacheM
  usedCache : Bool
deriving DecidableEq

/-- `sc.rs` `create_layers`: a missing root is bootstrapped to an empty
map; a decodable cache artifact with `current_modified <= last_modified`
is returned unchanged with no rebuild and nothing written; otherwise the
map is rebuilt from the subdirectories and a new snapshot is persisted
only when the rebuilt map is non-empty. -/
def create_layers (s : LayerDirState) : CreateLayersResult :=
  if s.dirExists then
    let current := get_latest_modified_time s
    let rebuilt : CreateLayersResult :=
      let m := rebuildLayerMap s
      ⟨m, if m = [] then none else some ⟨current, m⟩, false⟩
    match s.cacheArtifact with
    | some (some cache) =>
      if current ≤ cache.last_modified then ⟨cache.layer_map, none, true⟩
      else rebuilt
    | _ => rebuilt
  else ⟨[], none, false⟩

/-- The staleness bound exactly as claim C2 words it: the maximum
modification time over every file and directory under the layer root
excluding (only) the cache artifact itself, the root-level `cache.bin`. -/
def claimC2specMtime (s : LayerDirState) : Nat :=
  (s.walkEntries.filter (fun e => decide (e.path ≠ ["cache.bin"]))).foldl
    (fun acc e => max acc e.mtime) s.rootMtime

/-- Claim C2 exactly as stated: the cached map is returned unchanged
exactly when the artifact decodes and `last_modified` bounds the claim's
staleness measure, and in every other case the map is rebuilt and a new
snapshot `(current_modified, layer_map)` is persisted. -/
def claimC2 : Prop :=
  ∀ s : LayerDirState, s.dirExists = true →
    ((create_layers s).usedCache = true ↔
      ∃ c, s.cacheArtifact = some (some c) ∧
        claimC2specMtime s ≤ c.last_modified) ∧
    ((create_layers s).usedCache = true →
      ∃ c, s.cacheArtifact = some (some c) ∧
        (create_layers s).map = c.layer_map) ∧
    ((create_layers s).usedCache = false →
      (create_layers s).written =
        some ⟨claimC2specMtime s, (create_layers s).map⟩)

/-! ### Mod store (`sc.rs` `create_mods`, `path_ext.rs`) -/

/-- The part of a reversed filename before its first `'.'` (the reversed
extension) together with what remains; `none` when the filename has no
`'.'` at all. -/
def extSplitRev : List Char → Option (List Char × List Char)
  | [] => none
  | c :: cs =>
    if c = '.' then some ([], cs)
    else
      match extSplitRev cs with
      | some (e, s) => some (c :: e, s)
      | none => none

/-- Rust `Path::extension` on a file name: the portion after the final
`'.'`, provided the portion before it is nonempty (so `".zip"` has no
extension). -/
def extensionOf (fname : List Char) : Option (List Char) :=
  match extSplitRev fname.reverse with
  | some (erev, srev) => if srev = [] then none else some erev.reverse
  | none => none

/-- Rust `eq_ignore_ascii_case`. -/
def eqIgnoreAsciiCase (a b : List Char) : Bool :=
  a.map charLower = b.map charLower

/-- `path_ext.rs` `PathHelper::extension_eq`: the file's extension matches
the given one, ASCII case-insensitively. -/
def extension_eq (fname ext : List Char) : Bool :=
  match extensionOf fname with
  | some e => eqIgnoreAsciiCase e ext
  | none => false

/-- Suffix test on char lists (Rust `str::strip_suffix` succeeding). -/
def endsWithL (l suf : List Char) : Bool :=
  decide (l.reverse.take suf.length = suf.reverse)

/-- Drop the last `n` characters. -/
def dropLastN (l : List Char) (n : Nat) : List Char :=
  (l.reverse.drop n).reverse

/-- `sc.rs` `create_mods`, per-file sub id: `strip_suffix(".zip")` when the
filename ends in that exact suffix, otherwise the whole filename. -/
def modSubId (fname : List Char) : List Char :=
  if endsWithL fname ('.' :: ['z', 'i', 'p']) then dropLastN fname 4
  else fname

/-- The spec's reading of the sub id: the archive filename minus its
extension (Rust `file_stem`). -/
def fileStem (fname : List Char) : List Char :=
  match extensionOf fname with
  | some e => dropLastN fname (e.length + 1)
  | none => fname

/-- `sc.rs` `create_mods`: each immediate subdirectory of the mod root is a
mod id; the archive files beneath it that pass the case-insensitive `.zip`
filter are registered under `modSubId` of their filename. A missing mod
root is bootstrapped to an empty map. -/
def create_mods (dirExists : Bool)
    (modDirs : List (String × List (List Char × String))) :
    List (String × List (List Char × String)) :=
  if dirExists then
    modDirs.foldl
      (fun repo md =>
        let files := md.2.foldl
          (fun acc f =>
            if extension_eq f.1 ['z', 'i', 'p'] then
              insertA acc (modSubId f.1) f.2
            else acc)
          []
        insertA repo md.1 files)
      []
  else []

/-- Claim C9 exactly as stated: every filename matched by the
case-insensitive archive-extension filter registers under the filename
minus its extension. -/
def claimC9 : Prop :=
  ∀ fname : List Char, extension_eq fname ['z', 'i', 'p'] = true →
    modSubId fname = fileStem fname

/-! ## Association-map lemmas -/

theorem getA_nil {κ β : Type} [DecidableEq κ] (k : κ) :
    getA ([] : List (κ × β)) k = none := rfl

theorem getA_cons {κ β : Type} [DecidableEq κ] (k' : κ) (v : β) (m k) :
    getA ((k', v) :: m) k = if k = k' then some v else getA m k := rfl

theorem getA_filter_ne {κ β : Type} [DecidableEq κ]
    (m : List (κ × β)) (k k' : κ) :
    getA (m.filter (fun p => decide (p.1 ≠ k))) k' =
      if k' = k then none else getA m k' := by
  induction m with
  | nil => simp [getA]
  | cons p m ih =>
    obtain ⟨a, v⟩ := p
    rw [List.filter_cons]
    by_cases hak : a = k
    · subst hak
      rw [if_neg (by simp), ih]
      by_cases hk : k' = a
      · simp [hk]
      · rw [if_neg hk, if_neg hk, getA_cons, if_neg hk]
    · rw [if_pos (by simp [hak]), getA_cons, ih]
      by_cases hk : k' = a
      · subst hk
        rw [if_pos rfl, if_neg hak, getA_cons, if_pos rfl]
      · rw [if_neg hk]
        by_cases hkk : k' = k
        · simp [hkk]
        · rw [if_neg hkk, if_neg hkk, getA_cons, if_neg hk]

theorem getA_insertA {κ β : Type} [DecidableEq κ]
    (m : List (κ × β)) (k : κ) (v : β) (k' : κ) :
    getA (insertA m k v) k' = if k' = k then some v else getA m k' := by
  rw [insertA, getA_cons, getA_filter_ne]
  by_cases hk : k' = k <;> simp [hk]

theorem mem_insertA {κ β : Type} [DecidableEq κ]
    {m : List (κ × β)} {k : κ} {v : β} {p : κ × β}
    (h : p ∈ insertA m k v) : p = (k, v) ∨ p ∈ m := by
  rw [insertA, List.mem_cons] at h
  rcases h with h | h
  · exact Or.inl h
  · exact Or.inr (List.mem_of_mem_filter h)

theorem filter_eq_of_filter_ne {κ β : Type} [DecidableEq κ]
    (m : List (κ × β)) (k : κ) :
    (m.filter (fun p => decide (p.1 ≠ k))).filter
      (fun p => decide (p.1 = k)) = [] := by
  induction m with
  | nil => rfl
  | cons p m ih =>
    rw [List.filter_cons]
    by_cases hak : p.1 = k
    · rw [if_neg (by simp [hak])]
      exact ih
    · rw [if_pos (by simp [hak]), List.filter_cons, if_neg (by simp [hak])]
      exact ih

theorem countKey_insertA {κ β : Type} [DecidableEq κ]
    (m : List (κ × β)) (k : κ) (v : β) :
    countKey (insertA m k v) k = 1 := by
  rw [countKey, insertA, List.filter_cons, if_pos (by simp),
    filter_eq_of_filter_ne]
  rfl

theorem getA_eq_none_of_not_mem {κ β : Type} [DecidableEq κ]
    {m : List (κ × β)} {k : κ} (h : k ∉ m.map Prod.fst) :
    getA m k = none := by
  induction m with
  | nil => rfl
  | cons p m ih =>
    simp only [List.map_cons, List.mem_cons, not_or] at h
    simp [getA, h.1, ih h.2]

theorem getA_insertAll {κ β : Type} [DecidableEq κ]
    (m : List (κ × β)) (acc : List (κ × β)) (k : κ)
    (hn : (m.map Prod.fst).Nodup) :
    getA (m.foldl (fun a p => insertA a p.1 p.2) acc) k =
      orO (getA m k) (getA acc k) := by
  induction m generalizing acc with
  | nil => simp [getA, orO]
  | cons p m ih =>
    obtain ⟨a, v⟩ := p
    simp only [List.map_cons, List.nodup_cons] at hn
    rw [List.foldl_cons, ih _ hn.2]
    by_cases hk : k = a
    · subst hk
      rw [getA_eq_none_of_not_mem hn.1]
      simp [getA, getA_insertA, orO]
    · rw [getA_cons, if_neg hk, getA_insertA, if_neg hk]

/-! ## Layer-merge lemmas -/

theorem mergeStep_none (lm : List (String × MFS)) (acc : MFS) (lid : String)
    (h : getA lm lid = none) : mergeStep lm acc lid = acc := by
  simp [mergeStep, h]

theorem mergeStep_some (lm : List (String × MFS)) (acc : MFS) (lid : String)
    (mfs : MFS) (h : getA lm lid = some mfs) :
    mergeStep lm acc lid = mfs.foldl (fun a p => insertA a p.1 p.2) acc := by
  simp [mergeStep, h]

theorem getA_mem_of_some {lm : List (String × MFS)} {l : String} {mfs : MFS}
    (h : getA lm l = some mfs) : (l, mfs) ∈ lm := by
  induction lm with
  | nil => simp [getA] at h
  | cons q lm ihq =>
    rw [getA_cons] at h
    by_cases hql : l = q.1
    · rw [if_pos hql] at h
      obtain ⟨q1, q2⟩ := q
      cases Option.some.inj h
      cases hql
      exact List.mem_cons_self _ _
    · rw [if_neg hql] at h
      exact List.mem_cons_of_mem _ (ihq h)

theorem mergeLayers_foldl_getA (lm : List (String × MFS)) (ls : List String)
    (acc : MFS) (k : String) (hn : ∀ p ∈ lm, (p.2.map Prod.fst).Nodup) :
    getA (ls.foldl (mergeStep lm) acc) k =
      orO (lastWinsSpec lm ls k) (getA acc k) := by
  induction ls generalizing acc with
  | nil => simp [lastWinsSpec, orO]
  | cons l rest ih =>
    rw [List.foldl_cons, ih]
    cases hrest : lastWinsSpec lm rest k with
    | some v => simp [lastWinsSpec, hrest, orO]
    | none =>
      simp only [lastWinsSpec, hrest, orO]
      cases hl : getA lm l with
      | none => rw [mergeStep_none lm acc l hl]
                simp [orO]
      | some mfs =>
        rw [mergeStep_some lm acc l mfs hl,
          getA_insertAll _ _ _ (hn _ (getA_mem_of_some hl))]
        simp [orO]

theorem mergeLayers_lastWins (lm : List (String × MFS)) (ls : List String)
    (k : String) (hn : ∀ p ∈ lm, (p.2.map Prod.fst).Nodup) :
    getA (mergeLayers lm ls) k = lastWinsSpec lm ls k := by
  rw [mergeLayers, mergeLayers_foldl_getA lm ls [] k hn]
  cases lastWinsSpec lm ls k <;> rfl

theorem mergeLayers_foldl_filter (lm : List (String × MFS))
    (ls : List String) (acc : MFS) :
    ls.foldl (mergeStep lm) acc =
      (ls.filter (fun l => (getA lm l).isSome)).foldl (mergeStep lm) acc := by
  induction ls generalizing acc with
  | nil => rfl
  | cons l rest ih =>
    rw [List.foldl_cons, List.filter_cons]
    cases hl : getA lm l with
    | none =>
      rw [if_neg (by simp), mergeStep_none lm acc l hl]
      exact ih acc
    | some mfs =>
      rw [if_pos (by simp), List.foldl_cons]
      exact ih _

theorem mergeLayers_filter_present (lm : List (String × MFS))
    (ls : List String) :
    mergeLayers lm ls =
      mergeLayers lm (ls.filter (fun l => (getA lm l).isSome)) := by
  rw [mergeLayers, mergeLayers, mergeLayers_foldl_filter]

/-! ## Plain-path-guard lemmas -/

theorem pushComponents_of_mem_ddot (cs : List String) (acc : List String)
    (h : ".." ∈ cs) : pushComponents acc cs = none := by
  induction cs generalizing acc with
  | nil => simp at h
  | cons c rest ih =>
    rw [List.mem_cons] at h
    rw [pushComponents]
    by_cases hc : c = "" ∨ c = "."
    · rw [if_pos hc]
      rcases h with h | h
      · rcases hc with hc | hc <;> simp [← h] at hc
      · exact ih acc h
    · rw [if_neg hc]
      by_cases hdd : c = ".."
      · rw [if_pos hdd]
      · rw [if_neg hdd]
        rcases h with h | h
        · exact absurd h.symm hdd
        · exact ih _ h

theorem pushComponents_of_not_mem_ddot (cs : List String)
    (acc : List String) (h : ".." ∉ cs) :
    pushComponents acc cs =
      some (acc ++ cs.filter (fun c => decide ¬(c = "" ∨ c = "."))) := by
  induction cs generalizing acc with
  | nil => simp [pushComponents]
  | cons c rest ih =>
    rw [List.mem_cons, not_or] at h
    rw [pushComponents, List.filter_cons]
    by_cases hc : c = "" ∨ c = "."
    · rw [if_pos hc, if_neg (by simp [hc]), ih _ h.2]
    · rw [if_neg hc, if_neg (fun hdd => h.1 hdd.symm),
        if_pos (by simp [hc]), ih _ h.2]
      simp

/-! ## Instance-loop lemmas -/

theorem procFile_error_iff (indexStore : List (String × String))
    (layerStore : List (String × MFS)) (modStore : ModMapM)
    (map : List (String × SugarCubeInstance)) (f : RecordFile) :
    procFile indexStore layerStore modStore map f = .error () ↔
      passFilter f = true ∧ f.content = some (.error ()) := by
  rw [procFile]
  by_cases hp : passFilter f = true
  · rw [if_pos hp]
    cases hc : f.content with
    | none => simp [hc]
    | some r =>
      cases r with
      | error e => cases e; simp [hp]
      | ok cfg =>
        cases hr : resolveRecord indexStore layerStore modStore cfg <;>
          simp [hc, hr]
  · rw [if_neg hp]
    simp [hp]

theorem procFile_ok_shape (indexStore : List (String × String))
    (layerStore : List (String × MFS)) (modStore : ModMapM)
    (map : List (String × SugarCubeInstance)) (f : RecordFile)
    (h : ¬(passFilter f = true ∧ f.content = some (.error ()))) :
    ∃ m, procFile indexStore layerStore modStore map f = .ok m := by
  cases he : procFile indexStore layerStore modStore map f with
  | ok m => exact ⟨m, rfl⟩
  | error e =>
    cases e
    exact absurd ((procFile_error_iff _ _ _ _ _).mp he) h

theorem instLoop_error_iff (indexStore : List (String × String))
    (layerStore : List (String × MFS)) (modStore : ModMapM)
    (files : List RecordFile) (map : List (String × SugarCubeInstance)) :
    instLoop indexStore layerStore modStore files map = .error () ↔
      ∃ f ∈ files, passFilter f = true ∧ f.content = some (.error ()) := by
  induction files generalizing map with
  | nil => simp [instLoop]
  | cons f rest ih =>
    rw [instLoop]
    by_cases hf : passFilter f = true ∧ f.content = some (.error ())
    · rw [(procFile_error_iff _ _ _ _ _).mpr hf]
      simp [hf]
    · obtain ⟨m, hm⟩ := procFile_ok_shape indexStore layerStore modStore map f hf
      rw [hm]
      simp only [ih]
      constructor
      · intro hr
        obtain ⟨g, hg, hgp⟩ := hr
        exact ⟨g, List.mem_cons_of_mem _ hg, hgp⟩
      · intro hr
        obtain ⟨g, hg, hgp⟩ := hr
        rcases List.mem_cons.mp hg with hg | hg
        · exact absurd (hg ▸ hgp) hf
        · exact ⟨g, hg, hgp⟩

theorem procFile_getA_none (indexStore : List (String × String))
    (layerStore : List (String × MFS)) (modStore : ModMapM) (x : String)
    (map m' : List (String × SugarCubeInstance)) (f : RecordFile)
    (hbadf : ∀ cfg : SugarCubeInstanceConfig, f.content = some (.ok cfg) →
      cfg.id = x → getA indexStore cfg.index = none)
    (hp : procFile indexStore layerStore modStore map f = .ok m')
    (hmap : getA map x = none) : getA m' x = none := by
  rw [procFile] at hp
  by_cases hf : passFilter f = true
  · rw [if_pos hf] at hp
    cases hc : f.content with
    | none =>
      simp only [hc] at hp
      cases Except.ok.inj hp
      exact hmap
    | some r =>
      simp only [hc] at hp
      cases r with
      | error e => exact Except.noConfusion hp
      | ok cfg =>
        cases hr : resolveRecord indexStore layerStore modStore cfg with
        | none =>
          simp only [hr] at hp
          cases Except.ok.inj hp
          exact hmap
        | some inst =>
          simp only [hr] at hp
          cases Except.ok.inj hp
          rw [getA_insertA]
          by_cases hx : x = cfg.id
          · rw [resolveRecord, hbadf cfg hc hx.symm] at hr
            exact Option.noConfusion hr
          · rw [if_neg hx]
            exact hmap
  · rw [if_neg hf] at hp
    cases Except.ok.inj hp
    exact hmap

theorem instLoop_getA_none (indexStore : List (String × String))
    (layerStore : List (String × MFS)) (modStore : ModMapM) (x : String)
    (files : List RecordFile) (map m : List (String × SugarCubeInstance))
    (hbad : ∀ f ∈ files, ∀ cfg : SugarCubeInstanceConfig,
      f.content = some (.ok cfg) → cfg.id = x →
        getA indexStore cfg.index = none)
    (hrun : instLoop indexStore layerStore modStore files map = .ok m)
    (hmap : getA map x = none) : getA m x = none := by
  induction files generalizing map with
  | nil =>
    rw [instLoop] at hrun
    cases Except.ok.inj hrun
    exact hmap
  | cons f rest ih =>
    rw [instLoop] at hrun
    cases hp : procFile indexStore layerStore modStore map f with
    | error e =>
      rw [hp] at hrun
      exact Except.noConfusion hrun
    | ok m' =>
      rw [hp] at hrun
      exact ih m' (fun g hg => hbad g (List.mem_cons_of_mem _ hg)) hrun
        (procFile_getA_none indexStore layerStore modStore x map m' f
          (hbad f (List.mem_cons_self _ _)) hp hmap)

theorem foldl_modStep_nil (pairs : List (String × String))
    (acc : List ((String × String) × String)) :
    pairs.foldl (modStep []) acc = acc := by
  induction pairs generalizing acc with
  | nil => rfl
  | cons p rest ih => rw [List.foldl_cons, modStep, getA_nil]; exact ih acc

theorem resolveMods_nil (pairs : List (String × String)) :
    resolveMods [] pairs = [] := foldl_modStep_nil pairs []

theorem procFile_noMods (indexStore : List (String × String))
    (layerStore : List (String × MFS))
    (map m' : List (String × SugarCubeInstance)) (f : RecordFile)
    (hp : procFile indexStore layerStore [] map f = .ok m')
    (hmap : ∀ p ∈ map, p.2.mods_ref = []) :
    ∀ p ∈ m', p.2.mods_ref = [] := by
  rw [procFile] at hp
  by_cases hf : passFilter f = true
  · rw [if_pos hf] at hp
    cases hc : f.content with
    | none =>
      simp only [hc] at hp
      cases Except.ok.inj hp
      exact hmap
    | some r =>
      simp only [hc] at hp
      cases r with
      | error e => exact Except.noConfusion hp
      | ok cfg =>
        cases hr : resolveRecord indexStore layerStore [] cfg with
        | none =>
          simp only [hr] at hp
          cases Except.ok.inj hp
          exact hmap
        | some inst =>
          simp only [hr] at hp
          cases Except.ok.inj hp
          intro p hpm
          rcases mem_insertA hpm with hpe | hpm'
          · rw [resolveRecord] at hr
            cases hi : getA indexStore cfg.index with
            | none => rw [hi] at hr; exact Option.noConfusion hr
            | some ip =>
              rw [hi] at hr
              cases Option.some.inj hr
              rw [hpe]
              exact resolveMods_nil cfg.mods
          · exact hmap p hpm'
  · rw [if_neg hf] at hp
    cases Except.ok.inj hp
    exact hmap

theorem instLoop_noMods (indexStore : List (String × String))
    (layerStore : List (String × MFS)) (files : List RecordFile)
    (map m : List (String × SugarCubeInstance))
    (hrun : instLoop indexStore layerStore [] files map = .ok m)
    (hmap : ∀ p ∈ map, p.2.mods_ref = []) :
    ∀ p ∈ m, p.2.mods_ref = [] := by
  induction files generalizing map with
  | nil =>
    rw [instLoop] at hrun
    cases Except.ok.inj hrun
    exact hmap
  | cons f rest ih =>
    rw [instLoop] at hrun
    cases hp : procFile indexStore layerStore [] map f with
    | error e =>
      rw [hp] at hrun
      exact Except.noConfusion hrun
    | ok m' =>
      rw [hp] at hrun
      exact ih m' hrun
        (procFile_noMods indexStore layerStore map m' f hp hmap)

/-! ## Filename-extension lemmas -/

theorem extSplitRev_pizDot (r : List Char) :
    extSplitRev (['p', 'i', 'z', '.'] ++ r) = some (['p', 'i', 'z'], r) := by
  simp [extSplitRev]

/-! ## Claim theorems -/

/-- C1: for an instance's ordered layer list, the merged overlay built by
the `create_instances` fold maps each key to the file reference contributed
by the last layer in the list (among those present in the layer store) that
defines that key: folding in list order with insert-overwrite is
last-writer-wins. The hypothesis records that each layer map, coming from a
`HashMap`, has no duplicate keys. -/
theorem C1_merge_last_writer_wins (lm : List (String × MFS))
    (ls : List String) (k : String)
    (hn : ∀ p ∈ lm, (p.2.map Prod.fst).Nodup) :
    getA (mergeLayers lm ls) k = lastWinsSpec lm ls k :=
  mergeLayers_lastWins lm ls k hn

theorem C1_witness :
    getA (mergeLayers
        [("L1", [("a/b.png", FileNode.File "/layer/L1/a/b.png")]),
         ("L2", [("a/b.png", FileNode.File "/layer/L2/a/b.png")])]
        ["L1", "L2"]) "a/b.png" =
      some (FileNode.File "/layer/L2/a/b.png") ∧
    getA (mergeLayers
        [("L1", [("a/b.png", FileNode.File "/layer/L1/a/b.png")]),
         ("L2", [("a/b.png", FileNode.File "/layer/L2/a/b.png")])]
        ["L2", "L1"]) "a/b.png" =
      some (FileNode.File "/layer/L1/a/b.png") := by
  constructor
  · exact (C1_merge_last_writer_wins
      [("L1", [("a/b.png", FileNode.File "/layer/L1/a/b.png")]),
       ("L2", [("a/b.png", FileNode.File "/layer/L2/a/b.png")])]
      ["L1", "L2"] "a/b.png" (by decide)).trans (by decide)
  · exact (C1_merge_last_writer_wins
      [("L1", [("a/b.png", FileNode.File "/layer/L1/a/b.png")]),
       ("L2", [("a/b.png", FileNode.File "/layer/L2/a/b.png")])]
      ["L2", "L1"] "a/b.png" (by decide)).trans (by decide)

/-- C4: the overlay lookup of `handle_other_path` uses the request path
verbatim as the key of the slash-joined overlay key space, returns absent
exactly when the key is missing or the backing file cannot be read, and on
success returns the backing file's bytes together with its file name. -/
theorem C4_overlay_lookup (fs : FSim) (ov : MFS) (p : String) :
    (overlayLookup fs ov p = none ↔
      getA ov p = none ∨
        ∃ n, getA ov p = some n ∧ FileNode.resolve fs n = none) ∧
    (∀ (bytes : List Nat) (nm : String),
      overlayLookup fs ov p = some (bytes, nm) →
      ∃ q, getA ov p = some (FileNode.File q) ∧ fs q = some bytes ∧
        nm = fileName q) := by
  constructor
  · cases hov : getA ov p with
    | none => simp [overlayLookup, hov]
    | some n =>
      cases n with
      | File q =>
        cases hq : fs q with
        | none => simp [overlayLookup, hov, FileNode.resolve, hq]
        | some bytes => simp [overlayLookup, hov, FileNode.resolve, hq]
  · intro bytes nm h
    rw [overlayLookup] at h
    cases hov : getA ov p with
    | none =>
      rw [hov] at h
      exact Option.noConfusion h
    | some n =>
      rw [hov] at h
      cases n with
      | File q =>
        have h' : Option.map (fun bytes => (bytes, fileName q)) (fs q) =
            some (bytes, nm) := h
        cases hq : fs q with
        | none =>
          rw [hq] at h'
          exact Option.noConfusion h'
        | some b =>
          rw [hq] at h'
          have h2 := Option.some.inj h'
          injection h2 with hb hn2
          exact ⟨q, rfl, by rw [hq, hb], hn2.symm⟩

theorem C4_witness :
    overlayLookup (fun q => if q = "/d/a.png" then some [7] else none)
      [("a.png", FileNode.File "/d/a.png")] "ghost" = none ∧
    (∃ q, getA [("a.png", FileNode.File "/d/a.png")] "a.png" =
        some (FileNode.File q) ∧
      (fun q => if q = "/d/a.png" then some [7] else none) q = some [7] ∧
      "a.png" = fileName q) := by
  constructor
  · exact (C4_overlay_lookup (fun q => if q = "/d/a.png" then some [7] else none)
      [("a.png", FileNode.File "/d/a.png")] "ghost").1.mpr (Or.inl (by decide))
  · exact (C4_overlay_lookup (fun q => if q = "/d/a.png" then some [7] else none)
      [("a.png", FileNode.File "/d/a.png")] "a.png").2 [7] "a.png" (by decide)

/-- C5: in plain mode the requested sub-path is split on `/`, empty and
`.` components are dropped, and any `..` component anywhere rejects the
whole request with `forbidden` — an outcome carrying no path and reached
before any filesystem access — while a `..`-free path resolves to the root
extended by exactly the retained components. -/
theorem C5_plain_traversal_guard (root : List String) (p : String) :
    (".." ∈ splitSlash p → handlePlainPath root p = .forbidden) ∧
    (".." ∉ splitSlash p →
      handlePlainPath root p =
        .read (root ++ (splitSlash p).filter
          (fun c => decide ¬(c = "" ∨ c = ".")))) := by
  constructor
  · intro h
    rw [handlePlainPath, pushComponents_of_mem_ddot _ _ h]
  · intro h
    rw [handlePlainPath, pushComponents_of_not_mem_ddot _ _ h]

theorem C5_witness :
    handlePlainPath ["root"] "../../etc/passwd" = .forbidden ∧
    handlePlainPath ["root"] "a/./b" = handlePlainPath ["root"] "a/b" := by
  constructor
  · exact (C5_plain_traversal_guard ["root"] "../../etc/passwd").1 (by decide)
  · rw [(C5_plain_traversal_guard ["root"] "a/./b").2 (by decide),
      (C5_plain_traversal_guard ["root"] "a/b").2 (by decide)]
    decide

/-- C6: the fingerprint is a deterministic function of the content bytes
(equal byte sequences yield equal quoted 64-bit tags, for any choice of the
external hash), and `etag_check` returns a not-modified response exactly
when the client-presented `If-None-Match` value equals the fingerprint of
the current content bytes. -/
theorem C6_etag_properties (h : List Nat → Nat) (a b : List Nat)
    (inm : Option String) :
    (a = b → etag_hash h a = etag_hash h b) ∧
    ((etag_check h a inm).isSome = true ↔ inm = some (etag_hash h a)) := by
  constructor
  · intro hab
    rw [hab]
  · cases inm with
    | none => simp [etag_check]
    | some cli =>
      rw [etag_check]
      by_cases hc : cli = etag_hash h a
      · simp [hc]
      · rw [if_neg hc]
        constructor
        · intro hf
          exact absurd hf (by decide)
        · intro hf
          exact absurd (Option.some.inj hf) hc

theorem C6_witness :
    etag_hash (fun l => l.foldl (fun acc c => acc + c) 0) [1, 2] =
      etag_hash (fun l => l.foldl (fun acc c => acc + c) 0) [1, 2] ∧
    (etag_check (fun l => l.foldl (fun acc c => acc + c) 0) [1, 2]
      (some (etag_hash (fun l => l.foldl (fun acc c => acc + c) 0)
        [1, 2]))).isSome = true := by
  constructor
  · exact (C6_etag_properties (fun l => l.foldl (fun acc c => acc + c) 0)
      [1, 2] [1, 2] none).1 rfl
  · exact (C6_etag_properties (fun l => l.foldl (fun acc c => acc + c) 0)
      [1, 2] [1, 2]
      (some (etag_hash (fun l => l.foldl (fun acc c => acc + c) 0)
        [1, 2]))).2.mpr rfl

/-- C3: an instance record whose index resolves still resolves when some
of its layer ids are absent from the layer store — its overlay is the merge
of the remaining valid layers only — whereas a record whose index id is
absent from the index store is discarded, and if every record carrying an
id has a missing index, that id is entirely absent from the resulting
instance map. -/
theorem C3_reference_gaps (im : List (String × String))
    (lm : List (String × MFS)) (mm : ModMapM) :
    (∀ (cfg : SugarCubeInstanceConfig) (ip : String),
      getA im cfg.index = some ip →
      resolveRecord im lm mm cfg =
        some ⟨cfg.id, cfg.name, ip,
          mergeLayers lm (cfg.layers.filter (fun l => (getA lm l).isSome)),
          resolveMods mm cfg.mods⟩) ∧
    (∀ cfg : SugarCubeInstanceConfig,
      getA im cfg.index = none → resolveRecord im lm mm cfg = none) ∧
    (∀ (x : String) (files : List RecordFile)
      (m : List (String × SugarCubeInstance)),
      (∀ f ∈ files, ∀ cfg : SugarCubeInstanceConfig,
        f.content = some (.ok cfg) → cfg.id = x →
          getA im cfg.index = none) →
      create_instances im lm mm true files = .ok m → getA m x = none) := by
  refine ⟨?_, ?_, ?_⟩
  · intro cfg ip hip
    simp only [resolveRecord, hip]
    rw [← mergeLayers_filter_present]
  · intro cfg hip
    simp only [resolveRecord, hip]
  · intro x files m hbad hrun
    exact instLoop_getA_none im lm mm x files [] m hbad hrun rfl

theorem C3_witness :
    resolveRecord [("idx", "/i.html")] [("L1", [("f.txt", FileNode.File "/p")])]
      [] ⟨"x", none, "idx", ["L1", "ghost"], []⟩ =
      some ⟨"x", none, "/i.html",
        mergeLayers [("L1", [("f.txt", FileNode.File "/p")])]
          (["L1", "ghost"].filter
            (fun l =>
              (getA [("L1", [("f.txt", FileNode.File "/p")])] l).isSome)),
        resolveMods [] []⟩ ∧
    getA ([] : List (String × SugarCubeInstance)) "y" = none := by
  constructor
  · exact (C3_reference_gaps [("idx", "/i.html")]
      [("L1", [("f.txt", FileNode.File "/p")])] []).1
      ⟨"x", none, "idx", ["L1", "ghost"], []⟩ "/i.html" (by decide)
  · refine (C3_reference_gaps [("idx", "/i.html")]
      [("L1", [("f.txt", FileNode.File "/p")])] []).2.2 "y"
      [⟨"b.yaml", "yaml", some (.ok ⟨"y", none, "nope", [], []⟩)⟩] [] ?_ rfl
    intro f hf cfg hc hid
    rw [List.mem_singleton] at hf
    subst hf
    cases Except.ok.inj (Option.some.inj hc)
    decide

/-- C7: during instance resolution, a discovered record file that passes
the walker's extension filter and whose content fails to parse under the
format selected by its extension aborts the entire resolution pass with an
error (no partial instance map), and this is the only source of errors;
missing or empty store roots are not errors and yield empty maps (instance
root, layer root, mod root). -/
theorem C7_parse_failure_aborts (im : List (String × String))
    (lm : List (String × MFS)) (mm : ModMapM) :
    (∀ files : List RecordFile,
      create_instances im lm mm true files = .error () ↔
        ∃ f ∈ files, passFilter f = true ∧ f.content = some (.error ())) ∧
    (∀ files : List RecordFile,
      create_instances im lm mm false files = .ok []) ∧
    create_instances im lm mm true [] = .ok [] ∧
    (∀ s : LayerDirState, s.dirExists = false →
      create_layers s = ⟨[], none, false⟩) ∧
    (∀ modDirs, create_mods false modDirs = []) := by
  refine ⟨?_, ?_, rfl, ?_, ?_⟩
  · intro files
    exact instLoop_error_iff im lm mm files []
  · intro files
    rfl
  · intro s hs
    simp [create_layers, hs]
  · intro modDirs
    rfl

theorem C7_witness :
    create_instances [] [] [] true
      [⟨"broken.json", "json", some (.error ())⟩] = .error () ∧
    create_instances [] [] [] false
      [⟨"broken.json", "json", some (.error ())⟩] = .ok [] := by
  constructor
  · exact ((C7_parse_failure_aborts [] [] []).1
      [⟨"broken.json", "json", some (.error ())⟩]).mpr
      ⟨⟨"broken.json", "json", some (.error ())⟩, List.mem_singleton.mpr rfl,
        by decide, rfl⟩
  · exact (C7_parse_failure_aborts [] [] []).2.1
      [⟨"broken.json", "json", some (.error ())⟩]

/-- C8: two parseable record files declaring the same id (both with valid
index references) yield a resolution pass that succeeds and produces a map
with exactly one entry under that id, holding the instance resolved from
the record processed later. -/
theorem C8_duplicate_instance_ids (im : List (String × String))
    (lm : List (String × MFS)) (mm : ModMapM) (f1 f2 : RecordFile)
    (cfg1 cfg2 : SugarCubeInstanceConfig) (x : String)
    (h1p : passFilter f1 = true) (h1c : f1.content = some (.ok cfg1))
    (h1x : cfg1.id = x)
    (h2p : passFilter f2 = true) (h2c : f2.content = some (.ok cfg2))
    (h2x : cfg2.id = x)
    (h1i : (getA im cfg1.index).isSome = true)
    (h2i : (getA im cfg2.index).isSome = true) :
    ∃ m, create_instances im lm mm true [f1, f2] = .ok m ∧
      countKey m x = 1 ∧ getA m x = resolveRecord im lm mm cfg2 := by
  obtain ⟨ip1, hip1⟩ := Option.isSome_iff_exists.mp h1i
  obtain ⟨ip2, hip2⟩ := Option.isSome_iff_exists.mp h2i
  have hr1 : resolveRecord im lm mm cfg1 =
      some ⟨cfg1.id, cfg1.name, ip1, mergeLayers lm cfg1.layers,
        resolveMods mm cfg1.mods⟩ := by
    simp only [resolveRecord, hip1]
  have hr2 : resolveRecord im lm mm cfg2 =
      some ⟨cfg2.id, cfg2.name, ip2, mergeLayers lm cfg2.layers,
        resolveMods mm cfg2.mods⟩ := by
    simp only [resolveRecord, hip2]
  have hp1 : procFile im lm mm [] f1 =
      .ok (insertA [] cfg1.id
        ⟨cfg1.id, cfg1.name, ip1, mergeLayers lm cfg1.layers,
          resolveMods mm cfg1.mods⟩) := by
    rw [procFile, if_pos h1p]
    simp only [h1c, hr1]
  have hp2 : procFile im lm mm
      (insertA [] cfg1.id
        ⟨cfg1.id, cfg1.name, ip1, mergeLayers lm cfg1.layers,
          resolveMods mm cfg1.mods⟩) f2 =
      .ok (insertA
        (insertA [] cfg1.id
          ⟨cfg1.id, cfg1.name, ip1, mergeLayers lm cfg1.layers,
            resolveMods mm cfg1.mods⟩) cfg2.id
        ⟨cfg2.id, cfg2.name, ip2, mergeLayers lm cfg2.layers,
          resolveMods mm cfg2.mods⟩) := by
    rw [procFile, if_pos h2p]
    simp only [h2c, hr2]
  refine ⟨insertA
      (insertA [] cfg1.id
        ⟨cfg1.id, cfg1.name, ip1, mergeLayers lm cfg1.layers,
          resolveMods mm cfg1.mods⟩) cfg2.id
      ⟨cfg2.id, cfg2.name, ip2, mergeLayers lm cfg2.layers,
        resolveMods mm cfg2.mods⟩, ?_, ?_, ?_⟩
  · show instLoop im lm mm [f1, f2] [] = _
    simp only [instLoop, hp1, hp2]
  · rw [← h2x]
    exact countKey_insertA _ _ _
  · rw [getA_insertA, if_pos h2x.symm, hr2]

theorem C8_witness :
    ∃ m, create_instances
        [("i1", "/i1.html"), ("i2", "/i2.html")] [] [] true
        [⟨"a.json", "json", some (.ok ⟨"x", none, "i1", [], []⟩)⟩,
         ⟨"b.yaml", "yaml", some (.ok ⟨"x", none, "i2", [], []⟩)⟩] = .ok m ∧
      countKey m "x" = 1 ∧
      getA m "x" = resolveRecord [("i1", "/i1.html"), ("i2", "/i2.html")] [] []
        ⟨"x", none, "i2", [], []⟩ :=
  C8_duplicate_instance_ids [("i1", "/i1.html"), ("i2", "/i2.html")] [] []
    ⟨"a.json", "json", some (.ok ⟨"x", none, "i1", [], []⟩)⟩
    ⟨"b.yaml", "yaml", some (.ok ⟨"x", none, "i2", [], []⟩)⟩
    ⟨"x", none, "i1", [], []⟩ ⟨"x", none, "i2", [], []⟩ "x"
    (by decide) rfl rfl (by decide) rfl rfl (by decide) (by decide)

/-- C10: an entry built with `use_mods = false` has an empty mod repo, and
every resolved instance of that entry has an empty mod-reference set: every
(mod id, sub id) pair listed in an instance record is dropped as
unresolvable against the empty store, even when the archive exists in the
scanned mod store. -/
theorem C10_no_mods_when_disabled (name : Option String) (uss : Bool)
    (im : List (String × String)) (lm : List (String × MFS)) (ms : ModMapM)
    (dirExists : Bool) (files : List RecordFile) (info : SugarCubeInfo)
    (h : create_sc_info name false uss im lm ms dirExists files = .ok info) :
    info.mods = [] ∧ ∀ p ∈ info.instances, p.2.mods_ref = [] := by
  have h' : (match create_instances im lm [] dirExists files with
      | .error e => (.error e : Except Unit SugarCubeInfo)
      | .ok insts => .ok ⟨name, insts, [], false, uss⟩) = .ok info := h
  cases hci : create_instances im lm [] dirExists files with
  | error e =>
    rw [hci] at h'
    exact Except.noConfusion h'
  | ok insts =>
    rw [hci] at h'
    cases Except.ok.inj h'
    refine ⟨rfl, ?_⟩
    cases dirExists with
    | false =>
      have h'' : (.ok [] : Except Unit (List (String × SugarCubeInstance))) =
          .ok insts := hci
      cases Except.ok.inj h''
      intro p hp
      exact absurd hp (List.not_mem_nil p)
    | true =>
      exact instLoop_noMods im lm files [] insts hci
        (fun p hp => absurd hp (List.not_mem_nil p))

theorem C10_witness :
    (SugarCubeInfo.mods
      ⟨none, [("x", ⟨"x", none, "/i.html", [], []⟩)],
        [], false, true⟩) = [] ∧
    ∀ p ∈ (SugarCubeInfo.instances
      ⟨none, [("x", ⟨"x", none, "/i.html", [], []⟩)],
        [], false, true⟩), p.2.mods_ref = [] :=
  C10_no_mods_when_disabled none true [("idx", "/i.html")] []
    [("m1", [("1.0", "/mods/m1/Pack.zip")])] true
    [⟨"x.json", "json", some (.ok ⟨"x", none, "idx", [], [("m1", "1.0")]⟩)⟩]
    ⟨none, [("x", ⟨"x", none, "/i.html", [], []⟩)], [], false, true⟩ rfl

/-- C2, counterexample to the claim as stated: on a layer root that exists
but contains no subdirectories (and has no cache artifact), the rebuild
produces an empty map and `create_layers` persists nothing, while the
claim requires a snapshot `(current_modified, layer_map)` to be written in
every non-cached case. -/
theorem C2_counterexample : ¬claimC2 := by
  intro h
  have h3 := (h ⟨true, 0, [], none, []⟩ rfl).2.2 (by decide)
  exact absurd h3 (by decide)

/-- C2 (amended): with the layer root present, `create_layers` returns the
cached map unchanged — writing nothing — exactly when the cache artifact
decodes and `cache.last_modified` is at least the code's staleness measure
(which excludes every walk entry named `cache.bin`, not only the root
artifact); in every other case it rebuilds the map from the
subdirectories and persists `(current_modified, layer_map)` if and only if
the rebuilt map is non-empty. -/
theorem C2_create_layers_cache_amended (s : LayerDirState)
    (hex : s.dirExists = true) :
    ((create_layers s).usedCache = true ↔
      ∃ c, s.cacheArtifact = some (some c) ∧
        get_latest_modified_time s ≤ c.last_modified) ∧
    ((create_layers s).usedCache = true →
      ∃ c, s.cacheArtifact = some (some c) ∧
        (create_layers s).map = c.layer_map ∧
        (create_layers s).written = none) ∧
    ((create_layers s).usedCache = false →
      (create_layers s).map = rebuildLayerMap s ∧
      (create_layers s).written =
        (if rebuildLayerMap s = [] then none
         else some ⟨get_latest_modified_time s, rebuildLayerMap s⟩)) := by
  cases hca : s.cacheArtifact with
  | none =>
    have hres : create_layers s =
        ⟨rebuildLayerMap s,
          if rebuildLayerMap s = [] then none
          else some ⟨get_latest_modified_time s, rebuildLayerMap s⟩,
          false⟩ := by
      simp [create_layers, hex, hca]
    rw [hres]
    refine ⟨⟨fun hf => Bool.noConfusion hf, ?_⟩,
      fun hf => Bool.noConfusion hf, fun _ => ⟨rfl, rfl⟩⟩
    rintro ⟨c, hc, -⟩
    exact Option.noConfusion hc
  | some oc =>
    cases oc with
    | none =>
      have hres : create_layers s =
          ⟨rebuildLayerMap s,
            if rebuildLayerMap s = [] then none
            else some ⟨get_latest_modified_time s, rebuildLayerMap s⟩,
            false⟩ := by
        simp [create_layers, hex, hca]
      rw [hres]
      refine ⟨⟨fun hf => Bool.noConfusion hf, ?_⟩,
        fun hf => Bool.noConfusion hf, fun _ => ⟨rfl, rfl⟩⟩
      rintro ⟨c, hc, -⟩
      exact Option.noConfusion (Option.some.inj hc)
    | some c =>
      by_cases hle : get_latest_modified_time s ≤ c.last_modified
      · have hres : create_layers s = ⟨c.layer_map, none, true⟩ := by
          simp [create_layers, hex, hca, hle]
        rw [hres]
        exact ⟨⟨fun _ => ⟨c, rfl, hle⟩, fun _ => rfl⟩,
          fun _ => ⟨c, rfl, rfl, rfl⟩, fun hf => Bool.noConfusion hf⟩
      · have hres : create_layers s =
            ⟨rebuildLayerMap s,
              if rebuildLayerMap s = [] then none
              else some ⟨get_latest_modified_time s, rebuildLayerMap s⟩,
              false⟩ := by
          simp [create_layers, hex, hca, hle]
        rw [hres]
        refine ⟨⟨fun hf => Bool.noConfusion hf, ?_⟩,
          fun hf => Bool.noConfusion hf, fun _ => ⟨rfl, rfl⟩⟩
        rintro ⟨c', hc', hle'⟩
        cases Option.some.inj (Option.some.inj hc')
        exact absurd hle' hle

theorem C2_witness :
    (create_layers ⟨true, 5, [⟨["L"], 3⟩], some (some ⟨5, [("L", [])]⟩),
      [("L", some [])]⟩).usedCache = true :=
  (C2_create_layers_cache_amended
    ⟨true, 5, [⟨["L"], 3⟩], some (some ⟨5, [("L", [])]⟩),
      [("L", some [])]⟩ rfl).1.mpr ⟨⟨5, [("L", [])]⟩, rfl, by decide⟩

/-- C9, counterexample to the claim as stated: the file name `Pack.ZIP`
passes the case-insensitive archive filter, but `strip_suffix(".zip")` is
case-sensitive, so the file registers under `Pack.ZIP` rather than under
the filename minus its extension, `Pack`. -/
theorem C9_counterexample : ¬claimC9 := by
  intro h
  have hpz := h ['P', 'a', 'c', 'k', '.', 'Z', 'I', 'P'] (by decide)
  exact absurd hpz (by decide)

/-- C9 (amended): for every filename matched by the case-insensitive
archive-extension filter, the registered sub id is the filename minus its
extension when the filename ends in the exact lowercase suffix `.zip`, and
the unmodified filename (extension included) otherwise; `create_mods`
registers such a file under exactly that sub id. -/
theorem C9_mod_sub_id_amended (fname : List Char)
    (hf : extension_eq fname ['z', 'i', 'p'] = true) :
    (endsWithL fname ('.' :: ['z', 'i', 'p']) = true →
      modSubId fname = fileStem fname) ∧
    (endsWithL fname ('.' :: ['z', 'i', 'p']) = false →
      modSubId fname = fname) ∧
    (∀ mid p : String,
      create_mods true [(mid, [(fname, p)])] =
        [(mid, [(modSubId fname, p)])]) := by
  refine ⟨?_, ?_, ?_⟩
  · intro he
    have hr : fname.reverse.take 4 = ['p', 'i', 'z', '.'] :=
      of_decide_eq_true he
    have h1 : fname.reverse = ['p', 'i', 'z', '.'] ++ fname.reverse.drop 4 := by
      conv_lhs => rw [← List.take_append_drop 4 fname.reverse]
      rw [hr]
    have hne : fname.reverse.drop 4 ≠ [] := by
      intro h0
      rw [h0, List.append_nil] at h1
      have hnone : extensionOf fname = none := by
        simp only [extensionOf]
        rw [h1]
        rfl
      simp only [extension_eq, hnone] at hf
      exact absurd hf (by decide)
    have hext : extensionOf fname = some ['z', 'i', 'p'] := by
      simp only [extensionOf]
      rw [h1, extSplitRev_pizDot]
      simp [hne]
    rw [modSubId, if_pos he]
    simp [fileStem, hext, dropLastN]
  · intro he
    rw [modSubId, if_neg (by simp [he])]
  · intro mid p
    simp [create_mods, hf, insertA]

theorem C9_witness :
    extension_eq ['P', 'a', 'c', 'k', '.', 'z', 'i', 'p'] ['z', 'i', 'p'] =
      true ∧
    modSubId ['P', 'a', 'c', 'k', '.', 'z', 'i', 'p'] =
      fileStem ['P', 'a', 'c', 'k', '.', 'z', 'i', 'p'] ∧
    create_mods true
        [("m", [(['P', 'a', 'c', 'k', '.', 'z', 'i', 'p'], "/p")])] =
      [("m", [(modSubId ['P', 'a', 'c', 'k', '.', 'z', 'i', 'p'], "/p")])] := by
  refine ⟨by decide, ?_, ?_⟩
  · exact (C9_mod_sub_id_amended ['P', 'a', 'c', 'k', '.', 'z', 'i', 'p']
      (by decide)).1 (by decide)
  · exact (C9_mod_sub_id_amended ['P', 'a', 'c', 'k', '.', 'z', 'i', 'p']
      (by decide)).2.2 "m" "/p"

end UniRemote
